import Mathlib

/-!
Verification of the glyph synthesis and font-table assembly engine of the
PCXtoTTF repository (src/font_creator.py), against its natural-language
specification.

The embedding models:
  * the codepoint mapper of `FontCreator._create_glyphs` (lines 345-393):
    `baseAscii`, `originalPos`, `asciiValue`, the per-glyph cmap assignments
    `glyphStep`, the loop `stepsUpTo`, and the final cmap dictionary
    `cmapFinal` (python dict semantics: a later assignment to the same key
    overwrites the earlier one, modelled by `lookupLast`);
  * the glyph vectorizer of the same function (lines 282-343):
    `isBackground`, `pixelSquare`, `glyphOutline`, `finalOutline`, and the
    glyf/hmtx dictionaries `glyfTable` / `hmtxTable`;
  * `FontCreator.save_font` (lines 395-407) as `saveFont`.

Glyph names in the source are the strings `.notdef` and `glyph%05d` of the
index in glyph order; the format string is injective in the index, so names
are modelled by the inductive type `GlyphRef` (with `GlyphRef.glyph k`
standing for the name `glyph%05d % k`).
-/

/-- Glyph names: `GlyphRef.notdef` is the sentinel name `.notdef`;
`GlyphRef.glyph k` is the name produced by the format string `glyph%05d % k`
(`font_creator.py` lines 48-52, 328, 385), which is injective in `k`. -/
inductive GlyphRef where
  | notdef : GlyphRef
  | glyph : Nat → GlyphRef
deriving DecidableEq

/-- `self.scale = self.units_per_em // 8` with `units_per_em = 1024`
(`font_creator.py` lines 28-29), so one raster pixel is 128 design units. -/
def scale : Nat := 1024 / 8

/-- `base_ascii = 33 + i - 1` (`font_creator.py` line 347), for the 0-based
content glyph index `i`. -/
def baseAscii (i : Nat) : Nat := 33 + i - 1

/-- `original_pos = base_ascii + 32` (`font_creator.py` line 348). -/
def originalPos (i : Nat) : Nat := baseAscii i + 32

/-- `ascii_value` as computed by `font_creator.py` lines 350-361: the code
first picks `base_ascii` for lowercase letters and `base_ascii - 32`
otherwise, and then unconditionally replaces the result by
`62 + (original_pos - 32)` when `original_pos` lies in [32, 63]; this nested
conditional is that computation with the override applied first (the
overridden branch discards the previously computed value entirely).
`97` and `122` are `ord("a")` and `ord("z")`. -/
def asciiValue (i : Nat) : Nat :=
  if 32 ≤ originalPos i ∧ originalPos i ≤ 63 then 62 + (originalPos i - 32)
  else if 97 ≤ baseAscii i ∧ baseAscii i ≤ 122 then baseAscii i
  else baseAscii i - 32

/-- The cmap assignments performed for content glyph `i` in program order
(`font_creator.py` lines 363-382): the primary mapping, the uppercase
duplicate when `ascii_value` is a lowercase letter code, and — when
`original_pos > 61` — the extended-ASCII duplicate `ascii_value + 128` and
the Private-Use-Area duplicate `0xE000 + (original_pos - 32)`. -/
def glyphStep (i : Nat) : List (Nat × GlyphRef) :=
  [(asciiValue i, GlyphRef.glyph (i + 1))]
  ++ (if 97 ≤ asciiValue i ∧ asciiValue i ≤ 122 then
        [(asciiValue i - 32, GlyphRef.glyph (i + 1))]
      else [])
  ++ (if 61 < originalPos i then
        [(asciiValue i + 128, GlyphRef.glyph (i + 1)),
         (0xE000 + (originalPos i - 32), GlyphRef.glyph (i + 1))]
      else [])

/-- The cmap assignments performed by the loop over the first `n` content
glyphs, in program order (`for i, char_img in enumerate(self.characters)`,
`font_creator.py` line 299). -/
def stepsUpTo : Nat → List (Nat × GlyphRef)
  | 0 => []
  | n + 1 => stepsUpTo n ++ glyphStep n

/-- Every cmap assignment of a run with `n` content glyphs, in program order:
the initial `.notdef` entry at code 0 (`_create_cmap_table`,
`font_creator.py` line 250), then the per-glyph assignments, then the
trailing space glyph at code 32 (`font_creator.py` line 392). -/
def assignments (n : Nat) : List (Nat × GlyphRef) :=
  (0, GlyphRef.notdef) :: (stepsUpTo n ++ [(32, GlyphRef.glyph (n + 1))])

/-- Lookup in a python dict built by performing the listed assignments in
order: a later assignment to the same key overwrites an earlier one, so the
value returned is the value of the last assignment to the key. -/
def lookupLast (c : Nat) : List (Nat × GlyphRef) → Option GlyphRef
  | [] => none
  | (k, v) :: rest =>
    match lookupLast c rest with
    | some r => some r
    | none => if k = c then some v else none

/-- The final cmap dictionary of a run with `n` content glyphs, queried at
character code `c`. -/
def cmapFinal (n c : Nat) : Option GlyphRef := lookupLast c (assignments n)

/-- The primary-code rule as stated in the spec (section 4.2, rules 1-4):
`base = 33 + i - 1`, `original_pos = base + 32`, primary code is `base` for
a lowercase-letter `base` and `base - 32` otherwise, overridden to
`62 + (original_pos - 32)` whenever `original_pos` lies in [32, 63]. -/
def primaryCodeSpec (i : Nat) : Nat :=
  let base := 33 + i - 1
  let op := base + 32
  let primary := if 97 ≤ base ∧ base ≤ 122 then base else base - 32
  if 32 ≤ op ∧ op ≤ 63 then 62 + (op - 32) else primary

/-- The in-memory font state relevant to `save_font`: the glyph order list,
the hmtx metrics entries and the cmap entries (`font_creator.py`). -/
structure FontState where
  glyphOrder : List GlyphRef
  hmtx : List (GlyphRef × (Nat × Nat))
  cmap : List (Nat × GlyphRef)

/-- `FontCreator.save_font` (`font_creator.py` lines 395-407): raises
`ValueError` when the font has not been created, and otherwise
unconditionally invokes the writer (`self.font.save`) — it performs no
consistency validation of any table. The `true` result records that the
writer was invoked. -/
def saveFont (font : Option FontState) : Except String Bool :=
  match font with
  | none => Except.error "Font not created. Call create_font() first."
  | some _ => Except.ok true

/-- A font state whose glyph-order list and hmtx metrics table disagree in
length (two glyph names in glyph order, a single metrics entry). -/
def mismatchedState : FontState :=
  { glyphOrder := [GlyphRef.notdef, GlyphRef.glyph 1]
    hmtx := [(GlyphRef.notdef, (1024, 0))]
    cmap := [(0, GlyphRef.notdef)] }

/-- A raster cell: an 8x8 grid of RGB pixel samples, addressed as
`cell y x` with `y` measured from the top row (`char_img[y, x]` in
`font_creator.py` line 311; the code reads channels 0-2 of each pixel). -/
def Cell : Type := Nat → Nat → Nat × Nat × Nat

/-- The salmon background color `#9F5B53` (`font_creator.py` line 284). -/
def bgColor : Nat × Nat × Nat := (0x9F, 0x5B, 0x53)

/-- `is_background` (`font_creator.py` lines 282-286): a pixel is background
exactly when its RGB triple equals `#9F5B53`. -/
def isBackground (p : Nat × Nat × Nat) : Bool :=
  p.1 == 0x9F && p.2.1 == 0x5B && p.2.2 == 0x53

/-- The closed square path the pen draws for the ink pixel at `(x, y)`
(`font_creator.py` lines 314-325): corners `(x*scale, (7-y)*scale)`,
`((x+1)*scale, (7-y)*scale)`, `((x+1)*scale, (8-y)*scale)`,
`(x*scale, (8-y)*scale)`, in drawing order. -/
def pixelSquare (x y : Nat) : List (Nat × Nat) :=
  [(x * scale, (7 - y) * scale), ((x + 1) * scale, (7 - y) * scale),
   ((x + 1) * scale, (8 - y) * scale), (x * scale, (8 - y) * scale)]

/-- The contours drawn for one cell by the nested pixel loop
(`font_creator.py` lines 309-325): rows top to bottom, columns left to
right, one square contour per non-background pixel. -/
def glyphOutline (cell : Cell) : List (List (Nat × Nat)) :=
  (List.range 8).flatMap fun y =>
    (List.range 8).flatMap fun x =>
      if isBackground (cell y x) then [] else [pixelSquare x y]

/-- The ink pixels of a cell: the positions `(y, x)` of the 8x8 grid, in
loop order, whose pixel is not the background color. -/
def inkPixels (cell : Cell) : List (Nat × Nat) :=
  ((List.range 8).flatMap fun y =>
    (List.range 8).map fun x => (y, x)).filter
    fun p => !isBackground (cell p.1 p.2)

/-- The degenerate path drawn for a cell with no ink pixels and for the
trailing space glyph (`font_creator.py` lines 331-335 and 386-389):
`moveTo (0,0); lineTo (0,0); closePath`. -/
def degeneratePath : List (List (Nat × Nat)) := [[(0, 0), (0, 0)]]

/-- The outline actually stored for a content glyph: the pixel squares, or
the degenerate path when the cell has no ink pixel (`has_pixels` is false,
`font_creator.py` lines 330-340). -/
def finalOutline (cell : Cell) : List (List (Nat × Nat)) :=
  if inkPixels cell = [] then degeneratePath else glyphOutline cell

/-- The `.notdef` outline: a full-cell rectangle (`font_creator.py` lines
289-295). -/
def notdefOutline : List (List (Nat × Nat)) :=
  [[(0, 0), (8 * scale, 0), (8 * scale, 8 * scale), (0, 8 * scale)]]

/-- Every glyph advance width: `char_width * scale = 1024` design units
(`font_creator.py` lines 296, 343, 391). -/
def advanceWidth : Nat := 8 * scale

/-- The glyf dictionary after `_create_glyphs`: `.notdef`, one entry per
content glyph in order, then the trailing space glyph. -/
def glyfTable (cells : List Cell) : List (GlyphRef × List (List (Nat × Nat))) :=
  (GlyphRef.notdef, notdefOutline) ::
    ((cells.enum.map fun p => (GlyphRef.glyph (p.1 + 1), finalOutline p.2)) ++
     [(GlyphRef.glyph (cells.length + 1), degeneratePath)])

/-- The hmtx dictionary after `_create_glyphs`: a `(advance, bearing)` entry
`(1024, 0)` for `.notdef`, for every content glyph and for the trailing
space glyph. -/
def hmtxTable (cells : List Cell) : List (GlyphRef × (Nat × Nat)) :=
  (GlyphRef.notdef, (advanceWidth, 0)) ::
    ((cells.enum.map fun p => (GlyphRef.glyph (p.1 + 1), (advanceWidth, 0))) ++
     [(GlyphRef.glyph (cells.length + 1), (advanceWidth, 0))])

/-- A cell that is entirely background. -/
def allBgCell : Cell := fun _ _ => bgColor

theorem originalPos_eq (i : Nat) : originalPos i = 64 + i := by
  unfold originalPos baseAscii; omega

theorem asciiValue_eq (i : Nat) :
    asciiValue i = if 65 ≤ i ∧ i ≤ 90 then i + 32 else i := by
  simp only [asciiValue, originalPos, baseAscii]
  rw [if_neg (by omega)]
  by_cases h : 65 ≤ i ∧ i ≤ 90
  · rw [if_pos (by omega), if_pos h]; omega
  · rw [if_neg (by omega), if_neg h]; omega

/-- C3: for every content glyph index `i`, the primary character code the
code assigns is exactly the one demanded by the spec rules (base for
lowercase-letter base, otherwise base minus 32, overridden to
`62 + (original_pos - 32)` when `original_pos` lies in [32, 63]), and the
first cmap assignment of the mapping step for glyph `i` is that primary code
pointing at that glyph. -/
theorem primary_code_follows_spec_rules (i : Nat) :
    asciiValue i = primaryCodeSpec i ∧
    (glyphStep i).head? = some (asciiValue i, GlyphRef.glyph (i + 1)) :=
  ⟨rfl, rfl⟩

/-- C2 counterexample: for glyph index 0 the code computes
`original_pos = 64`, not 32, and the primary character code 0, not 62, so
the claimed scenario is false at its own input. -/
theorem first_glyph_scenario_false :
    ¬ (originalPos 0 = 32 ∧ asciiValue 0 = 62) := by decide

/-- C2 amended: for glyph index 0 the code computes `original_pos = 64` and
primary character code 0; the remap override that would produce 62 at
`original_pos = 32` cannot fire for any glyph index. -/
theorem first_glyph_actual_codes :
    originalPos 0 = 64 ∧ asciiValue 0 = 0 := by decide

/-- C10: for every content glyph index `i` the code computes
`original_pos = 64 + i`, hence the remap-override condition
`32 ≤ original_pos ≤ 63` never holds and the primary code is always the
un-overridden case value; and the extended-ASCII and Private-Use-Area
duplication branch (`original_pos > 61`) fires for every content glyph, so
its two assignments are present in every mapping step. -/
theorem original_pos_always_past_override (i : Nat) :
    originalPos i = 64 + i ∧
    ¬ (32 ≤ originalPos i ∧ originalPos i ≤ 63) ∧
    61 < originalPos i ∧
    asciiValue i =
      (if 97 ≤ baseAscii i ∧ baseAscii i ≤ 122 then baseAscii i
       else baseAscii i - 32) ∧
    (asciiValue i + 128, GlyphRef.glyph (i + 1)) ∈ glyphStep i ∧
    (0xE000 + (originalPos i - 32), GlyphRef.glyph (i + 1)) ∈ glyphStep i := by
  refine ⟨originalPos_eq i, by rw [originalPos_eq]; omega,
    by rw [originalPos_eq]; omega, ?_, ?_, ?_⟩
  · unfold asciiValue
    rw [if_neg (by rw [originalPos_eq]; omega)]
  · unfold glyphStep
    refine List.mem_append.mpr (Or.inr ?_)
    rw [if_pos (show 61 < originalPos i by rw [originalPos_eq]; omega)]
    simp
  · unfold glyphStep
    refine List.mem_append.mpr (Or.inr ?_)
    rw [if_pos (show 61 < originalPos i by rw [originalPos_eq]; omega)]
    simp

theorem lookupLast_append_right (c : Nat) (v : GlyphRef)
    (l₁ l₂ : List (Nat × GlyphRef)) (h : lookupLast c l₂ = some v) :
    lookupLast c (l₁ ++ l₂) = some v := by
  induction l₁ with
  | nil => simpa using h
  | cons p t ih =>
    obtain ⟨k, w⟩ := p
    show lookupLast c ((k, w) :: (t ++ l₂)) = some v
    simp only [lookupLast, ih]

theorem lookupLast_append_left (c : Nat) (l₁ l₂ : List (Nat × GlyphRef))
    (h : lookupLast c l₂ = none) :
    lookupLast c (l₁ ++ l₂) = lookupLast c l₁ := by
  induction l₁ with
  | nil => simpa using h
  | cons p t ih =>
    obtain ⟨k, w⟩ := p
    show lookupLast c ((k, w) :: (t ++ l₂)) = lookupLast c ((k, w) :: t)
    simp only [lookupLast, ih]

theorem lookupLast_mem (c : Nat) (v : GlyphRef) :
    ∀ l : List (Nat × GlyphRef), lookupLast c l = some v → (c, v) ∈ l := by
  intro l
  induction l with
  | nil => intro h; simp [lookupLast] at h
  | cons p t ih =>
    intro h
    obtain ⟨k, w⟩ := p
    simp only [lookupLast] at h
    cases h' : lookupLast c t with
    | some r =>
      rw [h'] at h
      exact List.mem_cons_of_mem _ (ih (h'.trans (by simpa using h)))
    | none =>
      rw [h'] at h
      by_cases hk : k = c
      · rw [if_pos hk] at h
        subst hk
        cases h
        exact List.mem_cons_self _ _
      · rw [if_neg hk] at h
        cases h

theorem lookupLast_of_all_values (c : Nat) (g : GlyphRef) :
    ∀ l : List (Nat × GlyphRef), (∀ p ∈ l, p.2 = g) →
      lookupLast c l = if ∃ p ∈ l, p.1 = c then some g else none := by
  intro l
  induction l with
  | nil => intro _; simp [lookupLast]
  | cons p t ih =>
    intro hall
    obtain ⟨k, w⟩ := p
    have hw : w = g := hall (k, w) (List.mem_cons_self _ _)
    have ht : ∀ q ∈ t, q.2 = g := fun q hq => hall q (List.mem_cons_of_mem _ hq)
    simp only [lookupLast, ih ht]
    by_cases hex : ∃ q ∈ t, q.1 = c
    · obtain ⟨q, hq, hq1⟩ := hex
      rw [if_pos (⟨q, hq, hq1⟩ : ∃ q ∈ t, q.1 = c)]
      rw [if_pos (⟨q, List.mem_cons_of_mem _ hq, hq1⟩ :
        ∃ p ∈ (k, w) :: t, p.1 = c)]
    · rw [if_neg hex]
      by_cases hk : k = c
      · rw [if_pos hk, if_pos (⟨(k, w), List.mem_cons_self _ _, hk⟩ :
          ∃ p ∈ (k, w) :: t, p.1 = c), hw]
      · have hno : ¬ ∃ p ∈ (k, w) :: t, p.1 = c := by
          rintro ⟨q, hq, hq1⟩
          rcases List.mem_cons.mp hq with h1 | h2
          · exact hk (by rw [h1] at hq1; exact hq1)
          · exact hex ⟨q, h2, hq1⟩
        rw [if_neg hk, if_neg hno]

theorem glyphStep_values (i : Nat) :
    ∀ p ∈ glyphStep i, p.2 = GlyphRef.glyph (i + 1) := by
  intro p hp
  unfold glyphStep at hp
  rcases List.mem_append.mp hp with h | h
  · rcases List.mem_append.mp h with h1 | h2
    · rw [List.mem_singleton.mp h1]
    · split at h2
      · rw [List.mem_singleton.mp h2]
      · cases h2
  · split at h
    · rcases List.mem_cons.mp h with h1 | h2
      · rw [h1]
      · rw [List.mem_singleton.mp h2]
    · cases h

theorem glyphStep_keys (j : Nat) :
    ∀ p ∈ glyphStep j,
      p.1 = asciiValue j ∨
      (97 ≤ asciiValue j ∧ asciiValue j ≤ 122 ∧ p.1 = asciiValue j - 32) ∨
      p.1 = asciiValue j + 128 ∨ p.1 = 0xE000 + 32 + j := by
  intro p hp
  unfold glyphStep at hp
  rcases List.mem_append.mp hp with h | h
  · rcases List.mem_append.mp h with h1 | h2
    · exact Or.inl (by rw [List.mem_singleton.mp h1])
    · split at h2
      next hc =>
        exact Or.inr (Or.inl ⟨hc.1, hc.2, by rw [List.mem_singleton.mp h2]⟩)
      next => cases h2
  · split at h
    next =>
      rcases List.mem_cons.mp h with h1 | h2
      · exact Or.inr (Or.inr (Or.inl (by rw [h1])))
      · refine Or.inr (Or.inr (Or.inr ?_))
        rw [List.mem_singleton.mp h2]
        show 0xE000 + (originalPos j - 32) = 0xE000 + 32 + j
        rw [originalPos_eq]
        omega
    next => cases h

theorem mem_glyphStep_primary (j : Nat) :
    (asciiValue j, GlyphRef.glyph (j + 1)) ∈ glyphStep j := by
  unfold glyphStep
  exact List.mem_append.mpr (Or.inl (List.mem_append.mpr (Or.inl (by simp))))

theorem mem_glyphStep_dup (j : Nat)
    (h : 97 ≤ asciiValue j ∧ asciiValue j ≤ 122) :
    (asciiValue j - 32, GlyphRef.glyph (j + 1)) ∈ glyphStep j := by
  unfold glyphStep
  refine List.mem_append.mpr (Or.inl (List.mem_append.mpr (Or.inr ?_)))
  rw [if_pos h]
  simp

theorem glyphStep_lookup (j c : Nat) :
    lookupLast c (glyphStep j) =
      if c = asciiValue j ∨
         (97 ≤ asciiValue j ∧ asciiValue j ≤ 122 ∧ c = asciiValue j - 32) ∨
         c = asciiValue j + 128 ∨ c = 0xE000 + 32 + j
      then some (GlyphRef.glyph (j + 1)) else none := by
  rw [lookupLast_of_all_values c (GlyphRef.glyph (j + 1)) _ (glyphStep_values j)]
  by_cases h : c = asciiValue j ∨
      (97 ≤ asciiValue j ∧ asciiValue j ≤ 122 ∧ c = asciiValue j - 32) ∨
      c = asciiValue j + 128 ∨ c = 0xE000 + 32 + j
  · rw [if_pos h]
    rcases h with h1 | h2 | h3 | h4
    · exact if_pos ⟨_, mem_glyphStep_primary j, h1.symm⟩
    · exact if_pos ⟨_, mem_glyphStep_dup j ⟨h2.1, h2.2.1⟩, h2.2.2.symm⟩
    · refine if_pos ⟨(asciiValue j + 128, GlyphRef.glyph (j + 1)), ?_, h3.symm⟩
      unfold glyphStep
      refine List.mem_append.mpr (Or.inr ?_)
      rw [if_pos (show 61 < originalPos j by rw [originalPos_eq]; omega)]
      simp
    · refine if_pos ⟨(0xE000 + (originalPos j - 32), GlyphRef.glyph (j + 1)),
        ?_, by rw [originalPos_eq]; omega⟩
      unfold glyphStep
      refine List.mem_append.mpr (Or.inr ?_)
      rw [if_pos (show 61 < originalPos j by rw [originalPos_eq]; omega)]
      simp
  · have hno : ¬ ∃ p ∈ glyphStep j, p.1 = c := by
      rintro ⟨q, hq, hq1⟩
      rcases glyphStep_keys j q hq with h1 | h2 | h3 | h4
      · exact h (Or.inl (by omega))
      · exact h (Or.inr (Or.inl ⟨h2.1, h2.2.1, by omega⟩))
      · exact h (Or.inr (Or.inr (Or.inl (by omega))))
      · exact h (Or.inr (Or.inr (Or.inr (by omega))))
    rw [if_neg h, if_neg hno]

theorem stepsUpTo_mem (c : Nat) (v : GlyphRef) :
    ∀ n, (c, v) ∈ stepsUpTo n → ∃ j, j < n ∧ (c, v) ∈ glyphStep j := by
  intro n
  induction n with
  | zero => intro h; cases h
  | succ n ih =>
    intro h
    rcases List.mem_append.mp h with h1 | h2
    · obtain ⟨j, hj, hm⟩ := ih h1
      exact ⟨j, by omega, hm⟩
    · exact ⟨n, by omega, h2⟩

theorem lookupLast_stepsUpTo_none (c : Nat) :
    ∀ n, (∀ j, j < n → lookupLast c (glyphStep j) = none) →
      lookupLast c (stepsUpTo n) = none := by
  intro n
  induction n with
  | zero => intro _; rfl
  | succ n ih =>
    intro h
    show lookupLast c (stepsUpTo n ++ glyphStep n) = none
    rw [lookupLast_append_left c _ _ (h n (by omega))]
    exact ih (fun j hj => h j (by omega))

theorem lookupLast_stepsUpTo_last (c i : Nat) :
    ∀ n, i < n →
      lookupLast c (glyphStep i) = some (GlyphRef.glyph (i + 1)) →
      (∀ j, i < j → j < n → lookupLast c (glyphStep j) = none) →
      lookupLast c (stepsUpTo n) = some (GlyphRef.glyph (i + 1)) := by
  intro n
  induction n with
  | zero => intro h; omega
  | succ n ih =>
    intro hi hsome hnone
    show lookupLast c (stepsUpTo n ++ glyphStep n) = _
    by_cases hin : i = n
    · subst hin
      exact lookupLast_append_right c _ _ _ hsome
    · rw [lookupLast_append_left c _ _ (hnone n (by omega) (by omega))]
      exact ih (by omega) hsome (fun j h1 h2 => hnone j h1 (by omega))

theorem cmapFinal_code32 (n : Nat) :
    cmapFinal n 32 = some (GlyphRef.glyph (n + 1)) := by
  show lookupLast 32
    ((0, GlyphRef.notdef) :: (stepsUpTo n ++ [(32, GlyphRef.glyph (n + 1))])) = _
  have h : lookupLast 32 (stepsUpTo n ++ [(32, GlyphRef.glyph (n + 1))]) =
      some (GlyphRef.glyph (n + 1)) :=
    lookupLast_append_right 32 _ _ _ rfl
  simp only [lookupLast, h]

theorem cmapFinal_of_steps (n c : Nat) (v : GlyphRef) (h32 : c ≠ 32)
    (h : lookupLast c (stepsUpTo n) = some v) : cmapFinal n c = some v := by
  show lookupLast c
    ((0, GlyphRef.notdef) :: (stepsUpTo n ++ [(32, GlyphRef.glyph (n + 1))])) = _
  have htr : lookupLast c [(32, GlyphRef.glyph (n + 1))] = none := by
    show (match lookupLast c [] with
      | some r => some r
      | none => if 32 = c then some (GlyphRef.glyph (n + 1)) else none) = none
    exact if_neg (fun he => h32 he.symm)
  have hsteps := lookupLast_append_left c (stepsUpTo n) _ htr
  simp only [lookupLast, hsteps, h]

theorem cmapFinal_mem (n c : Nat) (v : GlyphRef)
    (h : cmapFinal n c = some v) : (c, v) ∈ assignments n :=
  lookupLast_mem c v _ h

theorem cmapFinal_zero_of_pos (n : Nat) (hn : 0 < n) :
    cmapFinal n 0 = some (GlyphRef.glyph 1) := by
  apply cmapFinal_of_steps n 0 _ (by omega)
  apply lookupLast_stepsUpTo_last 0 0 n hn
  · rw [glyphStep_lookup, if_pos (Or.inl (by decide))]
  · intro j h1 h2
    rw [glyphStep_lookup, if_neg]
    have haj := asciiValue_eq j
    by_cases hj : 65 ≤ j ∧ j ≤ 90
    · rw [if_pos hj] at haj
      rintro (h | h | h | h) <;> omega
    · rw [if_neg hj] at haj
      rintro (h | h | h | h) <;> omega

/-- C1 counterexample: already for a single-character run the final cmap
resolves code 0 to the first content glyph, not to the sentinel: the first
content glyph computes primary code 0 and its assignment overwrites the
initial missing-glyph entry. -/
theorem notdef_entry_counterexample :
    cmapFinal 1 0 = some (GlyphRef.glyph 1) ∧
    cmapFinal 1 0 ≠ some GlyphRef.notdef := by decide

/-- C1 amended: the cmap is initialised with a missing-glyph entry at code
0, but for every non-empty character list the first content glyph (whose
primary code is 0) reassigns code 0 to itself, so the final table maps code
0 to the sentinel exactly when the character list is empty; the sentinel is
resolvable from no character code other than 0. -/
theorem notdef_entry_overwritten (n c : Nat) :
    (cmapFinal n c = some GlyphRef.notdef ↔ n = 0 ∧ c = 0) ∧
    (0 < n → cmapFinal n 0 = some (GlyphRef.glyph 1)) := by
  refine ⟨⟨?_, ?_⟩, cmapFinal_zero_of_pos n⟩
  · intro h
    have hc0 : c = 0 := by
      have hmem := cmapFinal_mem n c _ h
      rcases List.mem_cons.mp hmem with h1 | h1
      · exact congrArg Prod.fst h1
      · rcases List.mem_append.mp h1 with h2 | h2
        · obtain ⟨j, hj, hm⟩ := stepsUpTo_mem _ _ n h2
          exact absurd (glyphStep_values j _ hm) (by simp)
        · exact absurd (List.mem_singleton.mp h2) (by simp)
    refine ⟨?_, hc0⟩
    by_contra hn
    rw [hc0, cmapFinal_zero_of_pos n (by omega)] at h
    exact GlyphRef.noConfusion (Option.some.inj h)
  · rintro ⟨hn, hc⟩
    subst hn
    subst hc
    decide

/-- C1 witness: applying the amended statement at a concrete non-empty run. -/
theorem notdef_entry_overwritten_w :
    cmapFinal 2 0 = some (GlyphRef.glyph 1) :=
  (notdef_entry_overwritten 2 0).2 (by decide)

/-- C5: for every character list (of any length `n`), code 32 resolves to
the trailing space glyph, and the trailing space glyph is reachable from no
character code other than 32. -/
theorem trailing_glyph_only_space (n c : Nat) :
    cmapFinal n 32 = some (GlyphRef.glyph (n + 1)) ∧
    (c ≠ 32 → cmapFinal n c ≠ some (GlyphRef.glyph (n + 1))) := by
  refine ⟨cmapFinal_code32 n, ?_⟩
  intro h32 h
  have hmem := cmapFinal_mem n c _ h
  rcases List.mem_cons.mp hmem with h1 | h1
  · exact GlyphRef.noConfusion (congrArg Prod.snd h1)
  · rcases List.mem_append.mp h1 with h2 | h2
    · obtain ⟨j, hj, hm⟩ := stepsUpTo_mem _ _ n h2
      have hv : GlyphRef.glyph (n + 1) = GlyphRef.glyph (j + 1) :=
        glyphStep_values j _ hm
      have : n + 1 = j + 1 := GlyphRef.glyph.inj hv
      omega
    · exact h32 (congrArg Prod.fst (List.mem_singleton.mp h2))

/-- C5 witness: the trailing glyph of a two-character run resolves from
code 32 and not from code 0. -/
theorem trailing_glyph_only_space_w :
    cmapFinal 2 32 = some (GlyphRef.glyph 3) ∧
    cmapFinal 2 0 ≠ some (GlyphRef.glyph 3) :=
  ⟨(trailing_glyph_only_space 2 0).1,
   (trailing_glyph_only_space 2 0).2 (by decide)⟩

/-- C4 counterexample: in a run with the full 96-cell grid (and already in
any run with at least 33 characters), content glyph index 32 has
`original_pos = 96 > 61` and primary code 32, but the final cmap resolves
code 32 to the trailing space glyph (glyph00097), not to glyph00033, so not
all three fallback codes of that glyph resolve to it. -/
theorem fallback_codes_counterexample :
    61 < originalPos 32 ∧ asciiValue 32 = 32 ∧
    cmapFinal 96 32 = some (GlyphRef.glyph 97) ∧
    some (GlyphRef.glyph 97) ≠ some (GlyphRef.glyph 33) :=
  ⟨by decide, by decide, cmapFinal_code32 96, by decide⟩

/-- C4 amended: every content glyph has `original_pos > 61` and its three
fallback codes (primary, primary + 128, PUA) are pairwise distinct and all
resolve to it in the final cmap, except when a later mapping step reassigns
one of those codes: for runs of at most 96 characters (the pipeline always
uses exactly 96) the only such reassignment is the trailing space glyph
taking code 32 from content glyph index 32. -/
theorem fallback_codes_resolve (n i : Nat) (hn : n ≤ 96) (hi : i < n)
    (hni : i ≠ 32) :
    61 < originalPos i ∧
    asciiValue i ≠ asciiValue i + 128 ∧
    asciiValue i ≠ 0xE000 + (originalPos i - 32) ∧
    asciiValue i + 128 ≠ 0xE000 + (originalPos i - 32) ∧
    cmapFinal n (asciiValue i) = some (GlyphRef.glyph (i + 1)) ∧
    cmapFinal n (asciiValue i + 128) = some (GlyphRef.glyph (i + 1)) ∧
    cmapFinal n (0xE000 + (originalPos i - 32)) = some (GlyphRef.glyph (i + 1)) := by
  have hop := originalPos_eq i
  have hai := asciiValue_eq i
  have hbound : asciiValue i = i + 32 ∧ 65 ≤ i ∧ i ≤ 90 ∨
      asciiValue i = i ∧ ¬(65 ≤ i ∧ i ≤ 90) := by
    by_cases hA : 65 ≤ i ∧ i ≤ 90
    · rw [if_pos hA] at hai; exact Or.inl ⟨hai, hA⟩
    · rw [if_neg hA] at hai; exact Or.inr ⟨hai, hA⟩
  refine ⟨by omega, by omega, by omega, by omega, ?_, ?_, ?_⟩
  · apply cmapFinal_of_steps n _ _ (by omega)
    apply lookupLast_stepsUpTo_last _ i n hi
    · rw [glyphStep_lookup, if_pos (Or.inl rfl)]
    · intro j h1 h2
      rw [glyphStep_lookup, if_neg]
      have haj := asciiValue_eq j
      by_cases hj : 65 ≤ j ∧ j ≤ 90
      · rw [if_pos hj] at haj
        rintro (h | h | h | h) <;> omega
      · rw [if_neg hj] at haj
        rintro (h | h | h | h) <;> omega
  · apply cmapFinal_of_steps n _ _ (by omega)
    apply lookupLast_stepsUpTo_last _ i n hi
    · rw [glyphStep_lookup, if_pos (Or.inr (Or.inr (Or.inl rfl)))]
    · intro j h1 h2
      rw [glyphStep_lookup, if_neg]
      have haj := asciiValue_eq j
      by_cases hj : 65 ≤ j ∧ j ≤ 90
      · rw [if_pos hj] at haj
        rintro (h | h | h | h) <;> omega
      · rw [if_neg hj] at haj
        rintro (h | h | h | h) <;> omega
  · apply cmapFinal_of_steps n _ _ (by omega)
    apply lookupLast_stepsUpTo_last _ i n hi
    · rw [glyphStep_lookup, if_pos (Or.inr (Or.inr (Or.inr (by omega))))]
    · intro j h1 h2
      rw [glyphStep_lookup, if_neg]
      have haj := asciiValue_eq j
      by_cases hj : 65 ≤ j ∧ j ≤ 90
      · rw [if_pos hj] at haj
        rintro (h | h | h | h) <;> omega
      · rw [if_neg hj] at haj
        rintro (h | h | h | h) <;> omega

/-- C4 witness: content glyph index 1 of a two-character run resolves from
all three of its fallback codes. -/
theorem fallback_codes_resolve_w :
    61 < originalPos 1 ∧
    asciiValue 1 ≠ asciiValue 1 + 128 ∧
    asciiValue 1 ≠ 0xE000 + (originalPos 1 - 32) ∧
    asciiValue 1 + 128 ≠ 0xE000 + (originalPos 1 - 32) ∧
    cmapFinal 2 (asciiValue 1) = some (GlyphRef.glyph 2) ∧
    cmapFinal 2 (asciiValue 1 + 128) = some (GlyphRef.glyph 2) ∧
    cmapFinal 2 (0xE000 + (originalPos 1 - 32)) = some (GlyphRef.glyph 2) :=
  fallback_codes_resolve 2 1 (by decide) (by decide) (by decide)

/-- C6: for every content glyph whose (possibly overridden) primary code is
a lowercase-letter code, the mapping step also assigns the uppercase code
`primary - 32` to the same glyph, and in the final cmap the lowercase and
the uppercase code resolve to the identical glyph name — for every run
length: the set of later steps that can reassign one of the two codes
always reassigns both to the same glyph. -/
theorem case_duplication_resolves (n i : Nat) (hi : i < n)
    (hlo : 97 ≤ asciiValue i) (hhi : asciiValue i ≤ 122) :
    (asciiValue i - 32, GlyphRef.glyph (i + 1)) ∈ glyphStep i ∧
    ∃ g, cmapFinal n (asciiValue i) = some g ∧
      cmapFinal n (asciiValue i - 32) = some g := by
  refine ⟨mem_glyphStep_dup i ⟨hlo, hhi⟩, ?_⟩
  have hai := asciiValue_eq i
  by_cases hA : 65 ≤ i ∧ i ≤ 90
  · rw [if_pos hA] at hai
    by_cases hB : i + 32 < n
    · -- both codes were last assigned by content glyph i + 32
      have hai2 : asciiValue (i + 32) = i + 32 := by
        rw [asciiValue_eq, if_neg (by omega)]
      refine ⟨GlyphRef.glyph (i + 32 + 1), ?_, ?_⟩
      · apply cmapFinal_of_steps n _ _ (by omega)
        apply lookupLast_stepsUpTo_last _ (i + 32) n hB
        · rw [glyphStep_lookup, if_pos (Or.inl (by omega))]
        · intro j h1 h2
          rw [glyphStep_lookup, if_neg]
          have haj : asciiValue j = j := by rw [asciiValue_eq, if_neg (by omega)]
          rintro (h | h | h | h) <;> omega
      · apply cmapFinal_of_steps n _ _ (by omega)
        apply lookupLast_stepsUpTo_last _ (i + 32) n hB
        · rw [glyphStep_lookup,
            if_pos (Or.inr (Or.inl ⟨by omega, by omega, by omega⟩))]
        · intro j h1 h2
          rw [glyphStep_lookup, if_neg]
          have haj : asciiValue j = j := by rw [asciiValue_eq, if_neg (by omega)]
          rintro (h | h | h | h) <;> omega
    · -- both codes were last assigned by content glyph i itself
      refine ⟨GlyphRef.glyph (i + 1), ?_, ?_⟩
      · apply cmapFinal_of_steps n _ _ (by omega)
        apply lookupLast_stepsUpTo_last _ i n hi
        · rw [glyphStep_lookup, if_pos (Or.inl rfl)]
        · intro j h1 h2
          rw [glyphStep_lookup, if_neg]
          have haj := asciiValue_eq j
          by_cases hj : 65 ≤ j ∧ j ≤ 90
          · rw [if_pos hj] at haj
            rintro (h | h | h | h) <;> omega
          · rw [if_neg hj] at haj
            rintro (h | h | h | h) <;> omega
      · apply cmapFinal_of_steps n _ _ (by omega)
        apply lookupLast_stepsUpTo_last _ i n hi
        · rw [glyphStep_lookup, if_pos (Or.inr (Or.inl ⟨hlo, hhi, rfl⟩))]
        · intro j h1 h2
          rw [glyphStep_lookup, if_neg]
          have haj := asciiValue_eq j
          by_cases hj : 65 ≤ j ∧ j ≤ 90
          · rw [if_pos hj] at haj
            rintro (h | h | h | h) <;> omega
          · rw [if_neg hj] at haj
            rintro (h | h | h | h) <;> omega
  · -- asciiValue i = i, so i itself is a lowercase-letter code
    rw [if_neg hA] at hai
    refine ⟨GlyphRef.glyph (i + 1), ?_, ?_⟩
    · apply cmapFinal_of_steps n _ _ (by omega)
      apply lookupLast_stepsUpTo_last _ i n hi
      · rw [glyphStep_lookup, if_pos (Or.inl rfl)]
      · intro j h1 h2
        rw [glyphStep_lookup, if_neg]
        have haj : asciiValue j = j := by rw [asciiValue_eq, if_neg (by omega)]
        rintro (h | h | h | h) <;> omega
    · apply cmapFinal_of_steps n _ _ (by omega)
      apply lookupLast_stepsUpTo_last _ i n hi
      · rw [glyphStep_lookup, if_pos (Or.inr (Or.inl ⟨hlo, hhi, rfl⟩))]
      · intro j h1 h2
        rw [glyphStep_lookup, if_neg]
        have haj : asciiValue j = j := by rw [asciiValue_eq, if_neg (by omega)]
        rintro (h | h | h | h) <;> omega

/-- C6 witness: content glyph index 65 of a 66-character run has lowercase
primary code 97; both code 97 and code 65 resolve to the same glyph name. -/
theorem case_duplication_resolves_w :
    (asciiValue 65 - 32, GlyphRef.glyph 66) ∈ glyphStep 65 ∧
    ∃ g, cmapFinal 66 (asciiValue 65) = some g ∧
      cmapFinal 66 (asciiValue 65 - 32) = some g :=
  case_duplication_resolves 66 65 (by decide) (by decide) (by decide)


/-- C9: evaluating the code at a font state whose glyph-order list and
metrics table disagree in length shows that no consistency error is raised
and the writer is still invoked — `save_font` checks only that the font
object exists. -/
theorem save_font_ignores_inconsistency :
    mismatchedState.glyphOrder.length ≠ mismatchedState.hmtx.length ∧
    saveFont (some mismatchedState) = Except.ok true :=
  ⟨by decide, rfl⟩


theorem flatMap_if_eq_filter_map {α β : Type} (p : α → Bool) (f : α → β) :
    ∀ l : List α,
      (l.flatMap fun a => if p a then [] else [f a]) =
      (l.filter fun a => !p a).map f := by
  intro l
  induction l with
  | nil => rfl
  | cons a t ih =>
    rw [List.flatMap_cons, List.filter_cons, ih]
    cases hpa : p a <;> simp [hpa]

theorem filter_flatMap_comm {α β : Type} (q : β → Bool) (f : α → List β) :
    ∀ l : List α, (l.flatMap f).filter q = l.flatMap fun a => (f a).filter q := by
  intro l
  induction l with
  | nil => rfl
  | cons a t ih => rw [List.flatMap_cons, List.filter_append, ih, List.flatMap_cons]

theorem map_flatMap_comm {α β γ : Type} (g : β → γ) (f : α → List β) :
    ∀ l : List α, (l.flatMap f).map g = l.flatMap fun a => (f a).map g := by
  intro l
  induction l with
  | nil => rfl
  | cons a t ih => rw [List.flatMap_cons, List.map_append, ih, List.flatMap_cons]

theorem glyphOutline_eq_map_inkPixels (cell : Cell) :
    glyphOutline cell = (inkPixels cell).map fun p => pixelSquare p.2 p.1 := by
  unfold glyphOutline inkPixels
  rw [filter_flatMap_comm, map_flatMap_comm]
  refine List.flatMap_congr (fun y hy => ?_)
  rw [flatMap_if_eq_filter_map, List.filter_map, List.map_map]
  rfl

/-- C7: the vectorizer output is exactly one square path per ink pixel (a
pixel whose RGB triple differs from the background color), in loop order:
the emitted contour list is the map of `pixelSquare` over the ink pixels,
hence its length equals the ink-pixel count (no merging), each contour is
the 4-point square with the stated corners, and the design-unit scale is
128 per raster pixel. -/
theorem vectorizer_square_per_ink_pixel (cell : Cell) :
    scale = 128 ∧
    glyphOutline cell = ((inkPixels cell).map fun p => pixelSquare p.2 p.1) ∧
    (glyphOutline cell).length = (inkPixels cell).length ∧
    ∀ q ∈ glyphOutline cell, q.length = 4 := by
  have he := glyphOutline_eq_map_inkPixels cell
  refine ⟨rfl, he, by rw [he, List.length_map], ?_⟩
  intro q hq
  rw [he] at hq
  obtain ⟨p, hp, hq⟩ := List.mem_map.mp hq
  rw [← hq]
  rfl

/-- C7 witness: the statement instantiated at the all-background cell. -/
theorem vectorizer_square_per_ink_pixel_w :
    scale = 128 ∧
    glyphOutline allBgCell =
      ((inkPixels allBgCell).map fun p => pixelSquare p.2 p.1) ∧
    (glyphOutline allBgCell).length = (inkPixels allBgCell).length ∧
    ∀ q ∈ glyphOutline allBgCell, q.length = 4 :=
  vectorizer_square_per_ink_pixel allBgCell

theorem mem_enum_of_get {α : Type} (l : List α) (i : Nat) (h : i < l.length) :
    (i, l.get ⟨i, h⟩) ∈ l.enum := by
  have h2 : i < l.enum.length := by simpa using h
  have h3 := List.getElem_mem h2
  rw [List.getElem_enum] at h3
  exact h3

/-- C8: a content glyph whose cell has no ink pixel gets the single
degenerate zero-area path (never an absent outline), and it still receives
a glyf outline entry and an hmtx metrics entry like every other glyph. -/
theorem empty_cell_degenerate_outline (cells : List Cell) (i : Nat)
    (h : i < cells.length) (hink : inkPixels (cells.get ⟨i, h⟩) = []) :
    finalOutline (cells.get ⟨i, h⟩) = [[(0, 0), (0, 0)]] ∧
    (GlyphRef.glyph (i + 1), finalOutline (cells.get ⟨i, h⟩)) ∈ glyfTable cells ∧
    (GlyphRef.glyph (i + 1), (advanceWidth, 0)) ∈ hmtxTable cells := by
  have hdeg : finalOutline (cells.get ⟨i, h⟩) = degeneratePath := by
    unfold finalOutline
    rw [if_pos hink]
  refine ⟨hdeg, ?_, ?_⟩
  · refine List.mem_cons_of_mem _ (List.mem_append.mpr (Or.inl ?_))
    exact List.mem_map.mpr ⟨(i, cells.get ⟨i, h⟩), mem_enum_of_get cells i h, rfl⟩
  · refine List.mem_cons_of_mem _ (List.mem_append.mpr (Or.inl ?_))
    exact List.mem_map.mpr ⟨(i, cells.get ⟨i, h⟩), mem_enum_of_get cells i h, rfl⟩

/-- C8 witness: a one-cell run whose only cell is entirely background. -/
theorem empty_cell_degenerate_outline_w :
    finalOutline allBgCell = [[(0, 0), (0, 0)]] ∧
    (GlyphRef.glyph 1, finalOutline allBgCell) ∈ glyfTable [allBgCell] ∧
    (GlyphRef.glyph 1, (advanceWidth, 0)) ∈ hmtxTable [allBgCell] :=
  empty_cell_degenerate_outline [allBgCell] 0 (by decide) (by decide)
